import Mathlib

/-!
Verification of the position-translation, edit-batching, message-classification,
registry and progress-tracking behaviour of `helix-lsp/src/lib.rs`.

The document model: a rope is a sequence of Unicode scalar values, embedded as
`List Char`.  Line breaks follow helix/ropey with the `unicode-lines` feature
disabled: a line ends after every `'\n'`; the two-character sequence `"\r\n"`
is a single (two-character wide) terminator; a lone `'\r'` is not a line break.
-/

set_option maxRecDepth 4096

namespace HelixLsp

/-- Number of UTF-8 code units (bytes) of a Unicode scalar value. -/
def utf8Width (c : Char) : Nat :=
  if c.toNat < 0x80 then 1
  else if c.toNat < 0x800 then 2
  else if c.toNat < 0x10000 then 3
  else 4

/-- Number of UTF-16 code units of a Unicode scalar value. -/
def utf16Width (c : Char) : Nat :=
  if c.toNat < 0x10000 then 1 else 2

/-- Offset (in the code units measured by `w`) of the char index `p`:
the ropey conversions `char_to_byte` / `char_to_utf16_cu`, parametrised by the
per-char width function.  For `p` past the end it clamps to the total width. -/
def offW (w : Char → Nat) : List Char → Nat → Nat
  | [], _ => 0
  | _ :: _, 0 => 0
  | c :: cs, p + 1 => w c + offW w cs p

/-- Char index containing the code-unit offset `b`: ropey's
`byte_to_char` / `utf16_cu_to_char`, which round an offset inside a char down
to that char's index (they do not fail on a non-boundary offset). -/
def floorW (w : Char → Nat) : List Char → Nat → Nat
  | [], _ => 0
  | c :: cs, b => if b < w c then 0 else floorW w cs (b - w c) + 1

/-- Number of `'\n'` chars in the document. -/
def countNl : List Char → Nat
  | [] => 0
  | c :: cs => (if c = '\n' then 1 else 0) + countNl cs

/-- ropey `Rope::len_chars`. -/
def len_chars (doc : List Char) : Nat := doc.length

/-- ropey `Rope::len_lines`: one more than the number of line breaks. -/
def len_lines (doc : List Char) : Nat := countNl doc + 1

/-- ropey `Rope::char_to_line`: the line containing char index `p`
(a `'\n'` belongs to the line it terminates). -/
def char_to_line : List Char → Nat → Nat
  | [], _ => 0
  | _ :: _, 0 => 0
  | c :: cs, p + 1 => (if c = '\n' then 1 else 0) + char_to_line cs p

/-- ropey `Rope::line_to_char`: char index of the start of line `l`
(clamped to the document length for `l` past the last line). -/
def line_to_char : List Char → Nat → Nat
  | [], _ => 0
  | _ :: _, 0 => 0
  | c :: cs, l + 1 =>
    (if c = '\n' then line_to_char cs l else line_to_char cs (l + 1)) + 1

/-- ropey `Rope::char_to_byte`. -/
def char_to_byte (doc : List Char) (p : Nat) : Nat := offW utf8Width doc p

/-- ropey `Rope::char_to_utf16_cu`. -/
def char_to_utf16_cu (doc : List Char) (p : Nat) : Nat := offW utf16Width doc p

/-- ropey `Rope::len_bytes`. -/
def len_bytes (doc : List Char) : Nat := char_to_byte doc doc.length

/-- Total number of UTF-16 code units of the document. -/
def len_utf16 (doc : List Char) : Nat := char_to_utf16_cu doc doc.length

/-- ropey `Rope::line_to_byte`. -/
def line_to_byte (doc : List Char) (l : Nat) : Nat :=
  char_to_byte doc (line_to_char doc l)

/-- Char length of the line terminator of line `l`: helix
`get_line_ending(line).len_chars()` with the `unicode-lines` feature disabled.
A non-final line ends with `'\n'`; the terminator is `"\r\n"` (length 2) when
the char before that `'\n'` is `'\r'`, else `"\n"` (length 1); the final line
has no terminator. -/
def line_ending_len (doc : List Char) (l : Nat) : Nat :=
  if l < countNl doc then
    if 2 ≤ line_to_char doc (l + 1) ∧
        doc.get? (line_to_char doc (l + 1) - 2) = some '\r' then 2 else 1
  else 0

/-- helix `line_end_char_index`: char index of the end of line `l`, before the
line terminator. -/
def line_end_char_index (doc : List Char) (l : Nat) : Nat :=
  line_to_char doc (l + 1) - line_ending_len doc l

/-- helix `line_end_byte_index`: `line_to_byte(l+1)` minus the byte length of
the terminator.  Both recognised terminators consist of one-byte chars, so the
byte length of the terminator equals its char length. -/
def line_end_byte_index (doc : List Char) (l : Nat) : Nat :=
  line_to_byte doc (l + 1) - line_ending_len doc l

/-- ropey `Rope::try_byte_to_char`: errors only when the byte offset is past
the end; an offset inside a multi-byte char rounds down to that char. -/
def try_byte_to_char (doc : List Char) (b : Nat) : Option Nat :=
  if b ≤ len_bytes doc then some (floorW utf8Width doc b) else none

/-- ropey `Rope::try_utf16_cu_to_char`: errors only when the offset is past
the end; an offset inside a surrogate pair rounds down to that char. -/
def try_utf16_cu_to_char (doc : List Char) (u : Nat) : Option Nat :=
  if u ≤ len_utf16 doc then some (floorW utf16Width doc u) else none

/-- The `OffsetEncoding` enum from `helix-lsp/src/lib.rs`. -/
inductive OffsetEncoding where
  | Utf8
  | Utf32
  | Utf16
deriving DecidableEq

/-- The `lsp::Position` type: zero-based line and character, the latter measured in the
negotiated offset encoding.  The wire type stores `u32`; the embedding uses
`Nat` (all comparisons and arithmetic agree on the `u32` range). -/
structure Position where
  line : Nat
  character : Nat
deriving DecidableEq

/-- The `line` range computed inside `util::lsp_pos_to_pos`: the start and end
of line `pos_line` in the code units of the chosen encoding, the end taken
before the line terminator. -/
def line_unit_range (doc : List Char) (pos_line : Nat)
    (offset_encoding : OffsetEncoding) : Nat × Nat :=
  match offset_encoding with
  | .Utf8 => (line_to_byte doc pos_line, line_end_byte_index doc pos_line)
  | .Utf16 => (char_to_utf16_cu doc (line_to_char doc pos_line),
               char_to_utf16_cu doc (line_end_char_index doc pos_line))
  | .Utf32 => (line_to_char doc pos_line, line_end_char_index doc pos_line)

/-- Length of line `pos_line` (terminator excluded) in the code units of the
encoding: `line.end - line.start` of `line_unit_range`. -/
def line_unit_len (doc : List Char) (pos_line : Nat)
    (offset_encoding : OffsetEncoding) : Nat :=
  (line_unit_range doc pos_line offset_encoding).2 -
    (line_unit_range doc pos_line offset_encoding).1

/-- Embedding of `util::lsp_pos_to_pos` from `helix-lsp/src/lib.rs`.  The source computes
`line.start.checked_add(pos.character).unwrap_or(line.end).min(line.end)`;
over `Nat` the sum never overflows, and in the machine-overflow case the true
sum exceeds `line.end`, so `min (line.start + character) line.end` is the
value the source produces in either branch. -/
def lsp_pos_to_pos (doc : List Char) (pos : Position)
    (offset_encoding : OffsetEncoding) : Option Nat :=
  let pos_line := pos.line
  if pos_line > len_lines doc - 1 then none
  else
    let line := line_unit_range doc pos_line offset_encoding
    let p := min (line.1 + pos.character) line.2
    match offset_encoding with
    | .Utf8 => try_byte_to_char doc p
    | .Utf16 => try_utf16_cu_to_char doc p
    | .Utf32 => some p

/-- Embedding of `util::pos_to_lsp_pos` from `helix-lsp/src/lib.rs` (total here; the source
panics when `pos` is out of bounds, and the theorems only use it in bounds). -/
def pos_to_lsp_pos (doc : List Char) (pos : Nat)
    (offset_encoding : OffsetEncoding) : Position :=
  match offset_encoding with
  | .Utf8 =>
    let line := char_to_line doc pos
    let line_start := line_to_byte doc line
    ⟨line, char_to_byte doc pos - line_start⟩
  | .Utf16 =>
    let line := char_to_line doc pos
    let line_start := char_to_utf16_cu doc (line_to_char doc line)
    ⟨line, char_to_utf16_cu doc pos - line_start⟩
  | .Utf32 =>
    let line := char_to_line doc pos
    let line_start := line_to_char doc line
    ⟨line, pos - line_start⟩

/-- Char index `p` addresses the `'\n'` of a two-character `"\r\n"` line
terminator.  Such positions cannot be expressed as LSP positions (the LSP spec
forbids addressing the inside of a `\r\n` sequence). -/
def crlfInterior (doc : List Char) (p : Nat) : Prop :=
  1 ≤ p ∧ doc.get? p = some '\n' ∧ doc.get? (p - 1) = some '\r'

instance (doc : List Char) (p : Nat) : Decidable (crlfInterior doc p) := by
  unfold crlfInterior; infer_instance

/-- The derived `Ord` on `lsp::Position`: lexicographic by `line`, then
`character`. -/
def posLe (a b : Position) : Prop :=
  a.line < b.line ∨ (a.line = b.line ∧ a.character ≤ b.character)

instance (a b : Position) : Decidable (posLe a b) := by
  unfold posLe; infer_instance

/-- The `lsp::Range` type: start and end position of an edit. -/
structure Range where
  start : Position
  stop : Position
deriving DecidableEq

/-- The `lsp::TextEdit` type: a range to replace and the replacement text.  (`stop` in
`Range` embeds the source's `end` field, which is a reserved word here.) -/
structure TextEdit where
  range : Range
  new_text : String
deriving DecidableEq

/-- Insert an edit into a list sorted by range start, after all edits whose
start is not greater (the stable position). -/
def insertEdit (e : TextEdit) : List TextEdit → List TextEdit
  | [] => [e]
  | f :: fs =>
    if posLe e.range.start f.range.start then e :: f :: fs
    else f :: insertEdit e fs

/-- The sort in `generate_transaction_from_edits`:
`edits.sort_unstable_by_key(|edit| edit.range.start)`.  Rust's
`slice::sort_unstable` runs a plain insertion sort on slices of at most 20
elements, which coincides with stable insertion sort; the embedding is that
insertion sort. -/
def sort_by_start : List TextEdit → List TextEdit
  | [] => []
  | e :: es => insertEdit e (sort_by_start es)

/-- Modelled from the spec: `helix_core::Transaction` is outside this crate.
The claims only distinguish how the transaction was built, so the embedding
records the construction: a batched change built from
`(start, end, replacement)` triples, or a minimal diff of two documents. -/
inductive Transaction where
  | change (doc : List Char) (changes : List (Nat × Nat × Option String))
  | diff (oldDoc : List Char) (newDoc : String)
deriving DecidableEq

/-- Modelled from the spec: `helix_core::diff::compare_ropes` computes a
minimal diff between the old and the new contents; the embedding records its
two arguments. -/
def compare_ropes (doc : List Char) (newDoc : String) : Transaction :=
  .diff doc newDoc

/-- The per-edit closure passed to `Transaction::change` in
`generate_transaction_from_edits`: empty replacement text is simplified to
`none`, and an edit whose start or end does not translate becomes the no-op
triple `(0, 0, none)`. -/
def editTriple (doc : List Char) (offset_encoding : OffsetEncoding)
    (edit : TextEdit) : Nat × Nat × Option String :=
  let replacement : Option String :=
    if edit.new_text ≠ "" then some edit.new_text else none
  match lsp_pos_to_pos doc edit.range.start offset_encoding with
  | none => (0, 0, none)
  | some start =>
    match lsp_pos_to_pos doc edit.range.stop offset_encoding with
    | none => (0, 0, none)
    | some stop => (start, stop, replacement)

/-- The translated char range of an edit: the `and_then` chain in the
full-document-replacement test of `generate_transaction_from_edits`. -/
def translated_range (doc : List Char) (edit : TextEdit)
    (offset_encoding : OffsetEncoding) : Option (Nat × Nat) :=
  match lsp_pos_to_pos doc edit.range.start offset_encoding with
  | none => none
  | some start =>
    match lsp_pos_to_pos doc edit.range.stop offset_encoding with
    | none => none
    | some stop => some (start, stop)

/-- Body of `generate_transaction_from_edits` after the sort: a single edit
whose translated range is exactly `(0, len_chars)` goes through
`compare_ropes`; everything else through `Transaction::change` over the
per-edit triples. -/
def generate_from_sorted (doc : List Char) (sorted : List TextEdit)
    (offset_encoding : OffsetEncoding) : Transaction :=
  match sorted with
  | [edit] =>
    if translated_range doc edit offset_encoding = some (0, len_chars doc) then
      compare_ropes doc edit.new_text
    else Transaction.change doc [editTriple doc offset_encoding edit]
  | rest => Transaction.change doc (rest.map (editTriple doc offset_encoding))

/-- Embedding of `util::generate_transaction_from_edits` from `helix-lsp/src/lib.rs`. -/
def generate_transaction_from_edits (doc : List Char) (edits : List TextEdit)
    (offset_encoding : OffsetEncoding) : Transaction :=
  generate_from_sorted doc (sort_by_start edits) offset_encoding

/-- The `Error` enum of `helix-lsp/src/lib.rs`; payloads of variants defined
by external crates (`jsonrpc::Error`, `serde_json::Error`, `std::io::Error`,
`anyhow::Error`) are elided, and the `IO` variant is spelled `IOError`. -/
inductive Error where
  | Rpc
  | Parse
  | IOError
  | Timeout (id : Nat)
  | StreamClosed
  | Unhandled
  | Other
deriving DecidableEq

/-- Modelled from the spec: the decoded `lsp::WorkDoneProgressCreateParams`
payload (opaque here). -/
structure WorkDoneProgressCreateParams where
  value : Nat
deriving DecidableEq

/-- Modelled from the spec: the decoded `lsp::ApplyWorkspaceEditParams`
payload (opaque here). -/
structure ApplyWorkspaceEditParams where
  value : Nat
deriving DecidableEq

/-- Modelled from the spec: the decoded `lsp::ConfigurationParams` payload
(opaque here). -/
structure ConfigurationParams where
  value : Nat
deriving DecidableEq

/-- Modelled from the spec: the decoded `lsp::PublishDiagnosticsParams`
payload (opaque here). -/
structure PublishDiagnosticsParams where
  value : Nat
deriving DecidableEq

/-- Modelled from the spec: the decoded `lsp::ShowMessageParams` payload
(opaque here). -/
structure ShowMessageParams where
  value : Nat
deriving DecidableEq

/-- Modelled from the spec: the decoded `lsp::LogMessageParams` payload
(opaque here). -/
structure LogMessageParams where
  value : Nat
deriving DecidableEq

/-- Modelled from the spec: the decoded `lsp::ProgressParams` payload (opaque
here). -/
structure ProgressParams where
  value : Nat
deriving DecidableEq

/-- Modelled from the spec: `jsonrpc::Params` (the raw JSON parameter value;
the `jsonrpc` module is not under `src/`).  Parameter decoding is strict and
may fail; the embedding carries, for each typed parameter shape the parsers
request, the result of decoding the raw value into it (`none` = decode
failure). -/
structure Params where
  workDoneProgressCreate : Option WorkDoneProgressCreateParams
  applyWorkspaceEdit : Option ApplyWorkspaceEditParams
  configuration : Option ConfigurationParams
  publishDiagnostics : Option PublishDiagnosticsParams
  showMessage : Option ShowMessageParams
  logMessage : Option LogMessageParams
  progressParams : Option ProgressParams

/-- The `MethodCall` enum of `helix-lsp/src/lib.rs`. -/
inductive MethodCall where
  | WorkDoneProgressCreate (params : WorkDoneProgressCreateParams)
  | ApplyWorkspaceEdit (params : ApplyWorkspaceEditParams)
  | WorkspaceFolders
  | WorkspaceConfiguration (params : ConfigurationParams)
deriving DecidableEq

/-- Embedding of `MethodCall::parse` from `helix-lsp/src/lib.rs`: the four recognised
server-to-client requests, matched by their LSP method strings; a parameter
decode failure surfaces as `Error::Parse`, an unrecognised method as
`Error::Unhandled`. -/
def MethodCall.parse (method : String) (params : Params) :
    Except Error MethodCall :=
  if method = "window/workDoneProgress/create" then
    match params.workDoneProgressCreate with
    | some p => .ok (.WorkDoneProgressCreate p)
    | none => .error .Parse
  else if method = "workspace/applyEdit" then
    match params.applyWorkspaceEdit with
    | some p => .ok (.ApplyWorkspaceEdit p)
    | none => .error .Parse
  else if method = "workspace/workspaceFolders" then
    .ok .WorkspaceFolders
  else if method = "workspace/configuration" then
    match params.configuration with
    | some p => .ok (.WorkspaceConfiguration p)
    | none => .error .Parse
  else .error .Unhandled

/-- The `Notification` enum of `helix-lsp/src/lib.rs`. -/
inductive Notification where
  | Initialized
  | Exit
  | PublishDiagnostics (params : PublishDiagnosticsParams)
  | ShowMessage (params : ShowMessageParams)
  | LogMessage (params : LogMessageParams)
  | ProgressMessage (params : ProgressParams)
deriving DecidableEq

/-- Embedding of `Notification::parse` from `helix-lsp/src/lib.rs`: the six recognised
notifications, matched by their LSP method strings; a parameter decode
failure surfaces as `Error::Parse`, an unrecognised method as
`Error::Unhandled`. -/
def Notification.parse (method : String) (params : Params) :
    Except Error Notification :=
  if method = "initialized" then .ok .Initialized
  else if method = "exit" then .ok .Exit
  else if method = "textDocument/publishDiagnostics" then
    match params.publishDiagnostics with
    | some p => .ok (.PublishDiagnostics p)
    | none => .error .Parse
  else if method = "window/showMessage" then
    match params.showMessage with
    | some p => .ok (.ShowMessage p)
    | none => .error .Parse
  else if method = "window/logMessage" then
    match params.logMessage with
    | some p => .ok (.LogMessage p)
    | none => .error .Parse
  else if method = "$/progress" then
    match params.progressParams with
    | some p => .ok (.ProgressMessage p)
    | none => .error .Parse
  else .error .Unhandled

/-- Modelled from the spec: the language-server section of a language
configuration (only its presence matters to the registry claims). -/
structure LanguageServerConfiguration where
  command : String

/-- Modelled from the spec: a language configuration supplies the scope that
keys registry entries and the optional server configuration. -/
structure LanguageConfiguration where
  scope : String
  language_server : Option LanguageServerConfiguration

/-- Modelled from the spec: a running client handle; only the identifier
assigned at spawn is relevant to the registry claims. -/
structure Client where
  id : Nat
deriving DecidableEq

/-- Modelled from the spec: `start_client` spawns a server process and wraps
it in a client carrying the identifier it was given; process creation and the
inbound stream are elided, and the spawn is assumed to succeed. -/
def start_client (id : Nat) : Client := ⟨id⟩

/-- The `Registry` of `helix-lsp/src/lib.rs`: the scope-keyed map of
`(client_id, client)` pairs (the `HashMap` embedded as an association list
with unique keys) and the atomic identifier counter.  The merged incoming
stream is elided. -/
structure Registry where
  inner : List (String × Nat × Client)
  counter : Nat

/-- The `HashMap` lookup on the registry's inner map. -/
def lookupScope (inner : List (String × Nat × Client)) (scope : String) :
    Option (Nat × Client) :=
  (inner.find? (fun e => e.1 = scope)).map (fun e => e.2)

/-- Embedding of `Entry::Occupied::insert`: replace the value stored under an existing
key, leaving every other entry in place. -/
def updateScope (inner : List (String × Nat × Client)) (scope : String)
    (v : Nat × Client) : List (String × Nat × Client) :=
  inner.map (fun e => if e.1 = scope then (scope, v) else e)

/-- Registry well-formedness: scope keys are unique, every stored client
identifier is below the counter (identifiers are handed out by
`fetch_add`), and each stored client carries the identifier it was spawned
with. -/
def Registry.wf (r : Registry) : Prop :=
  (r.inner.map (fun e => e.1)).Nodup ∧
    ∀ e ∈ r.inner, e.2.1 < r.counter ∧ e.2.2.id = e.2.1

/-- Embedding of `Registry::restart` from `helix-lsp/src/lib.rs`: nothing happens without
a server configuration or without an existing entry for the scope; otherwise
a fresh identifier is taken from the counter (`fetch_add` returns the old
value), a replacement client is spawned and stored under the same scope, and
the old client is shut down asynchronously (elided). -/
def Registry.restart (r : Registry) (language_config : LanguageConfiguration) :
    Registry × Option Client :=
  match language_config.language_server with
  | none => (r, none)
  | some _ =>
    match lookupScope r.inner language_config.scope with
    | none => (r, none)
    | some _ =>
      let id := r.counter
      let client := start_client id
      ({ inner := updateScope r.inner language_config.scope (id, client),
         counter := r.counter + 1 }, some client)

/-- The `lsp::ProgressToken` type (`NumberOrString`). -/
inductive ProgressToken where
  | num (n : Int)
  | str (s : String)
deriving DecidableEq

/-- Modelled from the spec: the `lsp::WorkDoneProgress` payload of a progress
notification (opaque here). -/
structure WorkDoneProgress where
  value : Nat
deriving DecidableEq

/-- The `ProgressStatus` enum of `helix-lsp/src/lib.rs`. -/
inductive ProgressStatus where
  | Created
  | Started (progress : WorkDoneProgress)
deriving DecidableEq

/-- The `LspProgressMap` container: the two-level map `client_id → token → status`, with
each `HashMap` embedded as a partial function. -/
def LspProgressMap : Type :=
  Nat → Option (ProgressToken → Option ProgressStatus)

/-- Embedding of `LspProgressMap::progress`: the status recorded for `(id, token)`. -/
def LspProgressMap.progress (m : LspProgressMap) (id : Nat)
    (token : ProgressToken) : Option ProgressStatus :=
  match m id with
  | none => none
  | some values => values token

/-- Embedding of `LspProgressMap::end_progress`: remove the `(id, token)` entry and return
the removed status (`self.0.get_mut(&id).and_then(|vals| vals.remove(token))`).
The embedding returns the removed status together with the updated map. -/
def LspProgressMap.end_progress (m : LspProgressMap) (id : Nat)
    (token : ProgressToken) : Option ProgressStatus × LspProgressMap :=
  match m id with
  | none => (none, m)
  | some values =>
    (values token,
     fun i =>
       if i = id then
         some (fun t => if t = token then none else values t)
       else m i)

/-- The document of the position-clamping scenario in the source's test
suite. -/
def testDoc : List Char := "test\n\n\n\ncase".toList

/-- A document whose only line terminator is the two-character `"\r\n"`. -/
def crlfDoc : List Char := ['\r', '\n']

/-- A concrete edit whose endpoints do not translate in the empty document
(line 5 is out of bounds). -/
def wEditA : TextEdit := ⟨⟨⟨5, 0⟩, ⟨5, 1⟩⟩, "a"⟩

/-- A concrete edit at the start of the document. -/
def wEditB : TextEdit := ⟨⟨⟨0, 0⟩, ⟨0, 0⟩⟩, "b"⟩

/-- A concrete edit covering all of the one-char document `['a']`. -/
def wEditFull : TextEdit := ⟨⟨⟨0, 0⟩, ⟨0, 1⟩⟩, "zz"⟩

/-- A concrete edit starting at `(0,0)`. -/
def wEdit1 : TextEdit := ⟨⟨⟨0, 0⟩, ⟨0, 1⟩⟩, "x"⟩

/-- A concrete edit starting at `(1,0)`. -/
def wEdit2 : TextEdit := ⟨⟨⟨1, 0⟩, ⟨1, 1⟩⟩, "y"⟩

/-- A concrete registry holding one client with identifier `0` under the
scope `"source.rust"`, counter at `1`. -/
def wReg : Registry := ⟨[("source.rust", 0, ⟨0⟩)], 1⟩

/-- A concrete language configuration for the scope `"source.rust"` with a
server configured. -/
def wCfg : LanguageConfiguration := ⟨"source.rust", some ⟨"rust-analyzer"⟩⟩

theorem offW_zero (w : Char → Nat) (d : List Char) : offW w d 0 = 0 := by
  cases d <;> rfl

theorem offW_mono (w : Char → Nat) (d : List Char) :
    ∀ {p q : Nat}, p ≤ q → offW w d p ≤ offW w d q := by
  induction d with
  | nil => intro p q _; simp [offW]
  | cons c cs ih =>
    intro p q h
    cases p with
    | zero => rw [offW_zero]; exact Nat.zero_le _
    | succ p =>
      cases q with
      | zero => omega
      | succ q =>
        simp only [offW]
        exact Nat.add_le_add_left (ih (Nat.succ_le_succ_iff.mp h)) _

theorem floorW_le_length (w : Char → Nat) (d : List Char) (b : Nat) :
    floorW w d b ≤ d.length := by
  induction d generalizing b with
  | nil => simp [floorW]
  | cons c cs ih =>
    simp only [floorW, List.length_cons]
    split
    · exact Nat.zero_le _
    · exact Nat.succ_le_succ (ih _)

theorem floorW_offW (w : Char → Nat) (hw : ∀ c, 1 ≤ w c) (d : List Char) :
    ∀ p, p ≤ d.length → floorW w d (offW w d p) = p := by
  induction d with
  | nil =>
    intro p hp
    have hp0 : p = 0 := by simpa using hp
    subst hp0
    simp [offW, floorW]
  | cons c cs ih =>
    intro p hp
    cases p with
    | zero =>
      rw [offW_zero]
      simp only [floorW]
      rw [if_pos (show 0 < w c from hw c)]
    | succ p =>
      simp only [offW, floorW]
      rw [if_neg (by have := hw c; omega), Nat.add_sub_cancel_left,
        ih p (by simpa using hp)]

theorem offW_get (w : Char → Nat) (d : List Char) :
    ∀ p c, d.get? p = some c → offW w d (p + 1) = offW w d p + w c := by
  induction d with
  | nil => intro p c h; simp at h
  | cons a cs ih =>
    intro p c h
    cases p with
    | zero =>
      simp only [List.get?_cons_zero, Option.some.injEq] at h
      subst h
      simp [offW, offW_zero, Nat.add_comm]
    | succ p =>
      simp only [List.get?_cons_succ] at h
      simp only [offW, ih p c h]
      omega

theorem char_to_line_le_countNl (d : List Char) :
    ∀ p, char_to_line d p ≤ countNl d := by
  induction d with
  | nil => intro p; cases p <;> simp [char_to_line, countNl]
  | cons c cs ih =>
    intro p
    cases p with
    | zero => simp [char_to_line]
    | succ p =>
      simp only [char_to_line, countNl]
      exact Nat.add_le_add_left (ih p) _

theorem char_to_line_length (d : List Char) :
    char_to_line d d.length = countNl d := by
  induction d with
  | nil => simp [char_to_line, countNl]
  | cons c cs ih => simp [char_to_line, countNl, ih]

theorem line_to_char_zero (d : List Char) : line_to_char d 0 = 0 := by
  cases d <;> rfl

theorem line_to_char_le_length (d : List Char) :
    ∀ l, line_to_char d l ≤ d.length := by
  induction d with
  | nil => intro l; cases l <;> simp [line_to_char]
  | cons c cs ih =>
    intro l
    cases l with
    | zero => simp [line_to_char]
    | succ l =>
      simp only [line_to_char, List.length_cons]
      split
      · exact Nat.succ_le_succ (ih l)
      · exact Nat.succ_le_succ (ih (l + 1))

theorem line_to_char_of_countNl_lt (d : List Char) :
    ∀ l, countNl d < l → line_to_char d l = d.length := by
  induction d with
  | nil => intro l h; cases l <;> simp [line_to_char]
  | cons c cs ih =>
    intro l h
    cases l with
    | zero => simp [countNl] at h
    | succ l =>
      simp only [countNl] at h
      simp only [line_to_char, List.length_cons]
      by_cases hc : c = '\n'
      · rw [if_pos hc, ih l (by rw [if_pos hc] at h; omega)]
      · rw [if_neg hc, ih (l + 1) (by rw [if_neg hc] at h; omega)]

theorem line_to_char_lt_succ (d : List Char) :
    ∀ l, l < countNl d → line_to_char d l < line_to_char d (l + 1) := by
  induction d with
  | nil => intro l h; simp [countNl] at h
  | cons c cs ih =>
    intro l h
    cases l with
    | zero =>
      rw [line_to_char_zero]
      simp [line_to_char]
    | succ l =>
      simp only [countNl] at h
      simp only [line_to_char]
      by_cases hc : c = '\n'
      · rw [if_pos hc, if_pos hc]
        have := ih l (by rw [if_pos hc] at h; omega)
        omega
      · rw [if_neg hc, if_neg hc]
        have := ih (l + 1) (by rw [if_neg hc] at h; omega)
        omega

theorem line_to_char_le_succ (d : List Char) :
    ∀ l, line_to_char d l ≤ line_to_char d (l + 1) := by
  induction d with
  | nil => intro l; cases l <;> simp [line_to_char]
  | cons c cs ih =>
    intro l
    cases l with
    | zero => rw [line_to_char_zero]; exact Nat.zero_le _
    | succ l =>
      simp only [line_to_char]
      split
      · have := ih l; omega
      · have := ih (l + 1); omega

theorem line_to_char_succ_pos (c : Char) (cs : List Char) (l : Nat) :
    1 ≤ line_to_char (c :: cs) (l + 1) := by
  simp only [line_to_char]
  split <;> omega

theorem line_to_char_start_le (d : List Char) :
    ∀ p, line_to_char d (char_to_line d p) ≤ p := by
  induction d with
  | nil => intro p; cases p <;> simp [char_to_line, line_to_char]
  | cons c cs ih =>
    intro p
    cases p with
    | zero => simp [char_to_line, line_to_char]
    | succ p =>
      simp only [char_to_line]
      by_cases hc : c = '\n'
      · rw [if_pos hc, Nat.add_comm 1 (char_to_line cs p)]
        simp only [line_to_char, if_pos hc]
        exact Nat.succ_le_succ (ih p)
      · rw [if_neg hc]
        simp only [Nat.zero_add]
        cases hm : char_to_line cs p with
        | zero => rw [line_to_char_zero]; exact Nat.zero_le _
        | succ m =>
          simp only [line_to_char, if_neg hc]
          have := ih p
          rw [hm] at this
          omega

theorem lt_line_to_char_succ_line (d : List Char) :
    ∀ p, p < d.length → p < line_to_char d (char_to_line d p + 1) := by
  induction d with
  | nil => intro p h; simp at h
  | cons c cs ih =>
    intro p h
    cases p with
    | zero =>
      have h1 := line_to_char_succ_pos c cs (char_to_line (c :: cs) 0)
      omega
    | succ p =>
      simp only [List.length_cons] at h
      simp only [char_to_line]
      by_cases hc : c = '\n'
      · rw [if_pos hc, Nat.add_comm 1 (char_to_line cs p)]
        simp only [line_to_char, if_pos hc]
        exact Nat.succ_lt_succ (ih p (by omega))
      · rw [if_neg hc, Nat.zero_add]
        simp only [line_to_char, if_neg hc]
        exact Nat.succ_lt_succ (ih p (by omega))

theorem get_newline_at_line_end (d : List Char) :
    ∀ l, l < countNl d → d.get? (line_to_char d (l + 1) - 1) = some '\n' := by
  induction d with
  | nil => intro l h; simp [countNl] at h
  | cons c cs ih =>
    intro l h
    simp only [countNl] at h
    cases l with
    | zero =>
      by_cases hc : c = '\n'
      · simp only [line_to_char, if_pos hc, line_to_char_zero]
        simp [hc]
      · rw [if_neg hc] at h
        simp only [Nat.zero_add] at h
        simp only [line_to_char, if_neg hc]
        have hcs : cs ≠ [] := by
          intro hnil; rw [hnil] at h; simp [countNl] at h
        have hpos : 1 ≤ line_to_char cs 1 := by
          cases cs with
          | nil => exact absurd rfl hcs
          | cons a as => exact line_to_char_succ_pos a as 0
        rw [Nat.add_sub_cancel]
        have := ih 0 h
        rw [show line_to_char cs 1 =
          (line_to_char cs 1 - 1) + 1 by omega]
        simpa using this
    | succ l =>
      by_cases hc : c = '\n'
      · rw [if_pos hc] at h
        have hl : l < countNl cs := by omega
        simp only [line_to_char, if_pos hc]
        have hcs : cs ≠ [] := by
          intro hnil; rw [hnil] at hl; simp [countNl] at hl
        have hpos : 1 ≤ line_to_char cs (l + 1) := by
          cases cs with
          | nil => exact absurd rfl hcs
          | cons a as => exact line_to_char_succ_pos a as l
        rw [Nat.add_sub_cancel]
        have := ih l hl
        rw [show line_to_char cs (l + 1) =
          (line_to_char cs (l + 1) - 1) + 1 by omega]
        simpa using this
      · rw [if_neg hc] at h
        simp only [Nat.zero_add] at h
        simp only [line_to_char, if_neg hc]
        have hcs : cs ≠ [] := by
          intro hnil; rw [hnil] at h; simp [countNl] at h
        have hpos : 1 ≤ line_to_char cs (l + 2) := by
          cases cs with
          | nil => exact absurd rfl hcs
          | cons a as => exact line_to_char_succ_pos a as (l + 1)
        rw [Nat.add_sub_cancel]
        have := ih (l + 1) h
        rw [show line_to_char cs (l + 2) =
          (line_to_char cs (l + 2) - 1) + 1 by omega]
        simpa using this

theorem countNl_pos_ne_nil (d : List Char) (h : 0 < countNl d) : d ≠ [] := by
  intro hnil
  rw [hnil] at h
  simp [countNl] at h

theorem one_le_line_to_char_succ (d : List Char) (l : Nat) (h : d ≠ []) :
    1 ≤ line_to_char d (l + 1) := by
  cases d with
  | nil => exact absurd rfl h
  | cons c cs => exact line_to_char_succ_pos c cs l

theorem line_ending_len_cases (doc : List Char) (l : Nat) :
    (line_ending_len doc l = 0 ∧ ¬ l < countNl doc) ∨
    (line_ending_len doc l = 1 ∧ l < countNl doc ∧
      doc.get? (line_to_char doc (l + 1) - 1) = some '\n' ∧
      1 ≤ line_to_char doc (l + 1)) ∨
    (line_ending_len doc l = 2 ∧ l < countNl doc ∧
      doc.get? (line_to_char doc (l + 1) - 1) = some '\n' ∧
      doc.get? (line_to_char doc (l + 1) - 2) = some '\r' ∧
      2 ≤ line_to_char doc (l + 1)) := by
  unfold line_ending_len
  by_cases hlt : l < countNl doc
  · rw [if_pos hlt]
    have hnl := get_newline_at_line_end doc l hlt
    by_cases hcond : 2 ≤ line_to_char doc (l + 1) ∧
        doc.get? (line_to_char doc (l + 1) - 2) = some '\r'
    · rw [if_pos hcond]
      exact Or.inr (Or.inr ⟨rfl, hlt, hnl, hcond.2, hcond.1⟩)
    · rw [if_neg hcond]
      refine Or.inr (Or.inl ⟨rfl, hlt, hnl, ?_⟩)
      exact one_le_line_to_char_succ doc l (countNl_pos_ne_nil doc (by omega))
  · rw [if_neg hlt]
    exact Or.inl ⟨rfl, hlt⟩

theorem lt_length_of_line_lt (doc : List Char) (p : Nat) (hp : p ≤ doc.length)
    (hlt : char_to_line doc p < countNl doc) : p < doc.length := by
  by_contra hge
  have hpe : p = doc.length := by omega
  rw [hpe, char_to_line_length] at hlt
  omega

theorem le_line_end_of_not_crlf (doc : List Char) (p : Nat)
    (hp : p ≤ doc.length) (hcr : ¬ crlfInterior doc p) :
    p ≤ line_end_char_index doc (char_to_line doc p) := by
  rcases line_ending_len_cases doc (char_to_line doc p) with
    ⟨h0, hnlt⟩ | ⟨h1, hlt, _, _⟩ | ⟨h2, hlt, hnl, hr, hge⟩
  · have hle := char_to_line_le_countNl doc p
    have heq : char_to_line doc p = countNl doc := by omega
    unfold line_end_char_index
    rw [h0, Nat.sub_zero, heq,
      line_to_char_of_countNl_lt doc (countNl doc + 1) (by omega)]
    exact hp
  · have hplen := lt_length_of_line_lt doc p hp hlt
    have hpn1 := lt_line_to_char_succ_line doc p hplen
    unfold line_end_char_index
    rw [h1]
    omega
  · have hplen := lt_length_of_line_lt doc p hp hlt
    have hpn1 := lt_line_to_char_succ_line doc p hplen
    unfold line_end_char_index
    rw [h2]
    by_contra hgt
    push_neg at hgt
    have hpe : p = line_to_char doc (char_to_line doc p + 1) - 1 := by omega
    refine hcr ⟨by omega, ?_, ?_⟩
    · rw [hpe]; exact hnl
    · rw [show p - 1 = line_to_char doc (char_to_line doc p + 1) - 2 by omega]
      exact hr

theorem line_start_le_line_end (doc : List Char) (l : Nat) :
    line_to_char doc l ≤ line_end_char_index doc l := by
  rcases line_ending_len_cases doc l with
    ⟨h0, _⟩ | ⟨h1, hlt, _, _⟩ | ⟨h2, hlt, hnl, hr, hge⟩
  · unfold line_end_char_index
    rw [h0, Nat.sub_zero]
    exact line_to_char_le_succ doc l
  · unfold line_end_char_index
    rw [h1]
    have := line_to_char_lt_succ doc l hlt
    omega
  · unfold line_end_char_index
    rw [h2]
    have hslt := line_to_char_lt_succ doc l hlt
    by_contra hgt
    push_neg at hgt
    cases l with
    | zero =>
      rw [line_to_char_zero] at hslt hgt
      omega
    | succ l' =>
      have hse : line_to_char doc (l' + 1) =
          line_to_char doc (l' + 1 + 1) - 1 := by omega
      have hnl' := get_newline_at_line_end doc l' (by omega)
      rw [hse] at hnl'
      rw [show line_to_char doc (l' + 1 + 1) - 1 - 1 =
        line_to_char doc (l' + 1 + 1) - 2 by omega] at hnl'
      have := hnl'.symm.trans hr
      simp at this

theorem line_end_le_length (doc : List Char) (l : Nat) :
    line_end_char_index doc l ≤ doc.length := by
  unfold line_end_char_index
  have := line_to_char_le_length doc (l + 1)
  omega

theorem utf8Width_pos (c : Char) : 1 ≤ utf8Width c := by
  unfold utf8Width
  split_ifs <;> omega

theorem utf16Width_pos (c : Char) : 1 ≤ utf16Width c := by
  unfold utf16Width
  split_ifs <;> omega

theorem line_end_byte_eq (doc : List Char) (l : Nat) :
    line_end_byte_index doc l = char_to_byte doc (line_end_char_index doc l) := by
  rcases line_ending_len_cases doc l with
    ⟨h0, _⟩ | ⟨h1, hlt, hnl, hge⟩ | ⟨h2, hlt, hnl, hr, hge⟩
  · unfold line_end_byte_index line_end_char_index line_to_byte
    rw [h0, Nat.sub_zero, Nat.sub_zero]
  · unfold line_end_byte_index line_end_char_index line_to_byte char_to_byte
    rw [h1]
    have hoff := offW_get utf8Width doc (line_to_char doc (l + 1) - 1) '\n' hnl
    rw [show line_to_char doc (l + 1) - 1 + 1 = line_to_char doc (l + 1)
      by omega] at hoff
    rw [hoff, show utf8Width '\n' = 1 by decide]
    omega
  · unfold line_end_byte_index line_end_char_index line_to_byte char_to_byte
    rw [h2]
    have hoff1 := offW_get utf8Width doc (line_to_char doc (l + 1) - 1) '\n' hnl
    rw [show line_to_char doc (l + 1) - 1 + 1 = line_to_char doc (l + 1)
      by omega] at hoff1
    have hoff2 := offW_get utf8Width doc (line_to_char doc (l + 1) - 2) '\r' hr
    rw [show line_to_char doc (l + 1) - 2 + 1 = line_to_char doc (l + 1) - 1
      by omega] at hoff2
    rw [hoff1, hoff2, show utf8Width '\n' = 1 by decide,
      show utf8Width '\r' = 1 by decide]
    omega

theorem not_line_bound (doc : List Char) (p : Nat) :
    ¬ (char_to_line doc p > len_lines doc - 1) := by
  have := char_to_line_le_countNl doc p
  unfold len_lines
  omega

theorem lsp_pos_roundtrip (doc : List Char) (p : Nat) (enc : OffsetEncoding)
    (hp : p ≤ len_chars doc) (hcr : ¬ crlfInterior doc p) :
    lsp_pos_to_pos doc (pos_to_lsp_pos doc p enc) enc = some p := by
  have hp' : p ≤ doc.length := hp
  have hs := line_to_char_start_le doc p
  have he := le_line_end_of_not_crlf doc p hp' hcr
  have hbound := not_line_bound doc p
  cases enc with
  | Utf8 =>
    simp only [pos_to_lsp_pos, lsp_pos_to_pos, line_unit_range]
    rw [if_neg hbound, line_end_byte_eq]
    unfold line_to_byte char_to_byte
    rw [Nat.add_sub_cancel' (offW_mono utf8Width doc hs),
      min_eq_left (offW_mono utf8Width doc he)]
    unfold try_byte_to_char len_bytes char_to_byte
    rw [if_pos (offW_mono utf8Width doc hp'),
      floorW_offW utf8Width utf8Width_pos doc p hp']
  | Utf16 =>
    simp only [pos_to_lsp_pos, lsp_pos_to_pos, line_unit_range]
    rw [if_neg hbound]
    unfold char_to_utf16_cu
    rw [Nat.add_sub_cancel' (offW_mono utf16Width doc hs),
      min_eq_left (offW_mono utf16Width doc he)]
    unfold try_utf16_cu_to_char len_utf16 char_to_utf16_cu
    rw [if_pos (offW_mono utf16Width doc hp'),
      floorW_offW utf16Width utf16Width_pos doc p hp']
  | Utf32 =>
    simp only [pos_to_lsp_pos, lsp_pos_to_pos, line_unit_range]
    rw [if_neg hbound]
    rw [Nat.add_sub_cancel' hs, min_eq_left he]

theorem lsp_pos_clamp (doc : List Char) (l c : Nat) (enc : OffsetEncoding)
    (hl : l ≤ len_lines doc - 1) (hc : line_unit_len doc l enc ≤ c) :
    lsp_pos_to_pos doc ⟨l, c⟩ enc = some (line_end_char_index doc l) := by
  have hbound : ¬ (l > len_lines doc - 1) := by omega
  have hel := line_end_le_length doc l
  have hse := line_start_le_line_end doc l
  cases enc with
  | Utf8 =>
    simp only [line_unit_len, line_unit_range] at hc
    rw [line_end_byte_eq] at hc
    unfold line_to_byte char_to_byte at hc
    simp only [lsp_pos_to_pos, line_unit_range]
    rw [if_neg hbound, line_end_byte_eq]
    unfold line_to_byte char_to_byte
    rw [min_eq_right (by
      have := offW_mono utf8Width doc hse
      omega)]
    unfold try_byte_to_char len_bytes char_to_byte
    rw [if_pos (offW_mono utf8Width doc hel),
      floorW_offW utf8Width utf8Width_pos doc _ hel]
  | Utf16 =>
    simp only [line_unit_len, line_unit_range] at hc
    unfold char_to_utf16_cu at hc
    simp only [lsp_pos_to_pos, line_unit_range]
    rw [if_neg hbound]
    unfold char_to_utf16_cu
    rw [min_eq_right (by
      have := offW_mono utf16Width doc hse
      omega)]
    unfold try_utf16_cu_to_char len_utf16 char_to_utf16_cu
    rw [if_pos (offW_mono utf16Width doc hel),
      floorW_offW utf16Width utf16Width_pos doc _ hel]
  | Utf32 =>
    simp only [line_unit_len, line_unit_range] at hc
    simp only [lsp_pos_to_pos, line_unit_range]
    rw [if_neg hbound]
    rw [min_eq_right (by omega)]

theorem lsp_pos_in_bounds_some (doc : List Char) (pos : Position)
    (enc : OffsetEncoding) (h : pos.line ≤ len_lines doc - 1) :
    ∃ r, lsp_pos_to_pos doc pos enc = some r ∧ r ≤ len_chars doc := by
  have hbound : ¬ (pos.line > len_lines doc - 1) := by omega
  have hel := line_end_le_length doc pos.line
  cases enc with
  | Utf8 =>
    refine ⟨floorW utf8Width doc
      (min (line_to_byte doc pos.line + pos.character)
        (line_end_byte_index doc pos.line)), ?_, floorW_le_length _ _ _⟩
    simp only [lsp_pos_to_pos, line_unit_range]
    rw [if_neg hbound]
    unfold try_byte_to_char
    rw [if_pos ?_]
    have h1 : line_end_byte_index doc pos.line ≤ len_bytes doc := by
      rw [line_end_byte_eq]
      exact offW_mono utf8Width doc hel
    have h2 := Nat.min_le_right
      (line_to_byte doc pos.line + pos.character)
      (line_end_byte_index doc pos.line)
    omega
  | Utf16 =>
    refine ⟨floorW utf16Width doc
      (min (char_to_utf16_cu doc (line_to_char doc pos.line) + pos.character)
        (char_to_utf16_cu doc (line_end_char_index doc pos.line))),
      ?_, floorW_le_length _ _ _⟩
    simp only [lsp_pos_to_pos, line_unit_range]
    rw [if_neg hbound]
    unfold try_utf16_cu_to_char
    rw [if_pos ?_]
    have h1 : char_to_utf16_cu doc (line_end_char_index doc pos.line) ≤
        len_utf16 doc := offW_mono utf16Width doc hel
    have h2 := Nat.min_le_right
      (char_to_utf16_cu doc (line_to_char doc pos.line) + pos.character)
      (char_to_utf16_cu doc (line_end_char_index doc pos.line))
    omega
  | Utf32 =>
    refine ⟨min (line_to_char doc pos.line + pos.character)
      (line_end_char_index doc pos.line), ?_, ?_⟩
    · simp only [lsp_pos_to_pos, line_unit_range]
      rw [if_neg hbound]
    · have h2 := Nat.min_le_right
        (line_to_char doc pos.line + pos.character)
        (line_end_char_index doc pos.line)
      unfold len_chars
      omega

theorem lsp_pos_none_iff (doc : List Char) (pos : Position)
    (enc : OffsetEncoding) :
    lsp_pos_to_pos doc pos enc = none ↔ len_lines doc - 1 < pos.line := by
  constructor
  · intro h
    by_contra hn
    push_neg at hn
    obtain ⟨r, hr, _⟩ := lsp_pos_in_bounds_some doc pos enc hn
    rw [hr] at h
    exact Option.noConfusion h
  · intro h
    unfold lsp_pos_to_pos
    rw [if_pos h]

/-- C1 (counterexample).  The round-trip claim fails as stated: in the
document `"\r\n"` the char index `1` (the `'\n'` of the CRLF terminator) is
within document bounds, yet under every offset encoding
`lsp_pos_to_pos (pos_to_lsp_pos 1)` returns `some 0`, not `some 1`: the
character field is clamped to the line end, which lies before the two-char
terminator. -/
theorem roundtrip_fails_inside_crlf :
    1 < len_chars crlfDoc ∧
    lsp_pos_to_pos crlfDoc (pos_to_lsp_pos crlfDoc 1 .Utf8) .Utf8 = some 0 ∧
    lsp_pos_to_pos crlfDoc (pos_to_lsp_pos crlfDoc 1 .Utf16) .Utf16 = some 0 ∧
    lsp_pos_to_pos crlfDoc (pos_to_lsp_pos crlfDoc 1 .Utf32) .Utf32 = some 0 ∧
    lsp_pos_to_pos crlfDoc (pos_to_lsp_pos crlfDoc 1 .Utf8) .Utf8 ≠ some 1 := by
  decide

/-- C1 (amended).  Position conversion round-trips for every document, every
offset encoding, and every char index within document bounds that does not
address the `'\n'` inside a `"\r\n"` line terminator:
`lsp_pos_to_pos doc (pos_to_lsp_pos doc p enc) enc = some p`. -/
theorem roundtrip_char_index (doc : List Char) (p : Nat)
    (enc : OffsetEncoding) (hp : p ≤ len_chars doc)
    (hcr : ¬ crlfInterior doc p) :
    lsp_pos_to_pos doc (pos_to_lsp_pos doc p enc) enc = some p :=
  lsp_pos_roundtrip doc p enc hp hcr

/-- Witness for the amended C1 at a concrete input. -/
theorem roundtrip_char_index_witness :
    2 ≤ len_chars testDoc ∧ ¬ crlfInterior testDoc 2 ∧
    lsp_pos_to_pos testDoc (pos_to_lsp_pos testDoc 2 .Utf16) .Utf16 = some 2 :=
  ⟨by decide, by decide,
    roundtrip_char_index testDoc 2 .Utf16 (by decide) (by decide)⟩

/-- C2.  `lsp_pos_to_pos` clamps the character field of an in-bounds line to
the end of the line before the line terminator: whenever `character` is at
least the line's length in code units, the result is the line-end char
index; and on `"test\n\n\n\ncase"` under UTF-8, `(4,3) ↦ some 11`,
`(4,4) ↦ some 12`, `(4,5) ↦ some 12`, and `(5,0)` is absent. -/
theorem lsp_pos_clamps_to_line_end :
    (∀ (doc : List Char) (l c : Nat) (enc : OffsetEncoding),
      l ≤ len_lines doc - 1 → line_unit_len doc l enc ≤ c →
      lsp_pos_to_pos doc ⟨l, c⟩ enc = some (line_end_char_index doc l)) ∧
    lsp_pos_to_pos testDoc ⟨4, 3⟩ .Utf8 = some 11 ∧
    lsp_pos_to_pos testDoc ⟨4, 4⟩ .Utf8 = some 12 ∧
    lsp_pos_to_pos testDoc ⟨4, 5⟩ .Utf8 = some 12 ∧
    lsp_pos_to_pos testDoc ⟨5, 0⟩ .Utf8 = none :=
  ⟨fun doc l c enc hl hc => lsp_pos_clamp doc l c enc hl hc,
    by decide, by decide, by decide, by decide⟩

/-- Witness for C2's clamping component at a concrete input. -/
theorem lsp_pos_clamps_to_line_end_witness :
    (0 : Nat) ≤ len_lines ['a', '\n'] - 1 ∧
    line_unit_len ['a', '\n'] 0 .Utf8 ≤ 5 ∧
    lsp_pos_to_pos ['a', '\n'] ⟨0, 5⟩ .Utf8 =
      some (line_end_char_index ['a', '\n'] 0) :=
  ⟨by decide, by decide,
    lsp_pos_clamps_to_line_end.1 ['a', '\n'] 0 5 .Utf8 (by decide) (by decide)⟩

/-- C3.  `lsp_pos_to_pos` is absent exactly when the line exceeds the line
count minus one; every in-bounds position maps to `some` char index within
document bounds; and on the empty document `(0,0) ↦ some 0`,
`(0,1) ↦ some 0`, `(1,0)` and `(u32::MAX, u32::MAX)` are absent. -/
theorem lsp_pos_total_in_bounds :
    (∀ (doc : List Char) (pos : Position) (enc : OffsetEncoding),
      lsp_pos_to_pos doc pos enc = none ↔ len_lines doc - 1 < pos.line) ∧
    (∀ (doc : List Char) (pos : Position) (enc : OffsetEncoding),
      pos.line ≤ len_lines doc - 1 →
      ∃ r, lsp_pos_to_pos doc pos enc = some r ∧ r ≤ len_chars doc) ∧
    (∀ enc, lsp_pos_to_pos [] ⟨0, 0⟩ enc = some 0) ∧
    (∀ enc, lsp_pos_to_pos [] ⟨0, 1⟩ enc = some 0) ∧
    (∀ enc, lsp_pos_to_pos [] ⟨1, 0⟩ enc = none) ∧
    (∀ enc, lsp_pos_to_pos [] ⟨4294967295, 4294967295⟩ enc = none) :=
  ⟨fun doc pos enc => lsp_pos_none_iff doc pos enc,
    fun doc pos enc h => lsp_pos_in_bounds_some doc pos enc h,
    fun enc => by cases enc <;> decide,
    fun enc => by cases enc <;> decide,
    fun enc => by cases enc <;> decide,
    fun enc => by cases enc <;> decide⟩

/-- Witness for C3's in-bounds component at a concrete input. -/
theorem lsp_pos_total_in_bounds_witness :
    (⟨0, 7⟩ : Position).line ≤ len_lines ['a', 'b'] - 1 ∧
    ∃ r, lsp_pos_to_pos ['a', 'b'] ⟨0, 7⟩ .Utf8 = some r ∧
      r ≤ len_chars ['a', 'b'] :=
  ⟨by decide, lsp_pos_total_in_bounds.2.1 ['a', 'b'] ⟨0, 7⟩ .Utf8 (by decide)⟩

/-- C10.  Under UTF-32, `lsp_pos_to_pos` is total over in-bounds lines: for
every line within the rope's line count and every character value, however
large, the result is `some` — the clamp `min (line_start + character)
line_end` absorbs any overflow of the addition instead of reporting absence
(in the source, `checked_add`'s `None` is mapped to `line.end` by
`unwrap_or`, which agrees with the unbounded `min`). -/
theorem utf32_total_over_in_bounds_lines (doc : List Char) (l c : Nat)
    (hl : l ≤ len_lines doc - 1) :
    ∃ r, lsp_pos_to_pos doc ⟨l, c⟩ .Utf32 = some r := by
  obtain ⟨r, hr, _⟩ := lsp_pos_in_bounds_some doc ⟨l, c⟩ .Utf32 hl
  exact ⟨r, hr⟩

/-- Witness for C10 at a concrete input with an astronomically large
character value. -/
theorem utf32_total_over_in_bounds_lines_witness :
    (1 : Nat) ≤ len_lines ['a', '\n', 'b'] - 1 ∧
    ∃ r, lsp_pos_to_pos ['a', '\n', 'b'] ⟨1, 10 ^ 40⟩ .Utf32 = some r :=
  ⟨by decide,
    utf32_total_over_in_bounds_lines ['a', '\n', 'b'] 1 (10 ^ 40) (by decide)⟩

theorem posLe_refl (a : Position) : posLe a a := Or.inr ⟨rfl, Nat.le_refl _⟩

theorem posLe_total (a b : Position) : posLe a b ∨ posLe b a := by
  unfold posLe
  omega

theorem posLe_trans (a b c : Position) (h1 : posLe a b) (h2 : posLe b c) :
    posLe a c := by
  unfold posLe at h1 h2 ⊢
  omega

theorem posLe_antisymm (a b : Position) (h1 : posLe a b) (h2 : posLe b a) :
    a = b := by
  unfold posLe at h1 h2
  have hl : a.line = b.line := by omega
  have hc : a.character = b.character := by omega
  cases a
  cases b
  simp_all

theorem insertEdit_perm (e : TextEdit) (l : List TextEdit) :
    (insertEdit e l).Perm (e :: l) := by
  induction l with
  | nil => exact List.Perm.refl _
  | cons f fs ih =>
    unfold insertEdit
    split
    · exact List.Perm.refl _
    · exact (List.Perm.cons f ih).trans (List.Perm.swap e f fs)

theorem sort_by_start_perm (l : List TextEdit) :
    (sort_by_start l).Perm l := by
  induction l with
  | nil => exact List.Perm.refl _
  | cons e es ih =>
    exact (insertEdit_perm e (sort_by_start es)).trans (List.Perm.cons e ih)

theorem mem_insertEdit (x e : TextEdit) (l : List TextEdit) :
    x ∈ insertEdit e l ↔ x = e ∨ x ∈ l := by
  rw [(insertEdit_perm e l).mem_iff, List.mem_cons]

theorem pairwise_insertEdit (e : TextEdit) (l : List TextEdit)
    (h : l.Pairwise (fun a b => posLe a.range.start b.range.start)) :
    (insertEdit e l).Pairwise (fun a b => posLe a.range.start b.range.start) := by
  induction l with
  | nil => simp [insertEdit]
  | cons f fs ih =>
    rw [List.pairwise_cons] at h
    unfold insertEdit
    split
    · rename_i hle
      rw [List.pairwise_cons]
      refine ⟨?_, List.pairwise_cons.mpr h⟩
      intro x hx
      rcases List.mem_cons.mp hx with hxf | hxs
      · rw [hxf]; exact hle
      · exact posLe_trans _ _ _ hle (h.1 x hxs)
    · rename_i hnle
      have hfe : posLe f.range.start e.range.start :=
        (posLe_total _ _).resolve_left hnle
      rw [List.pairwise_cons]
      refine ⟨?_, ih h.2⟩
      intro x hx
      rcases (mem_insertEdit x e fs).mp hx with hxe | hxs
      · rw [hxe]; exact hfe
      · exact h.1 x hxs

theorem sort_by_start_sorted (l : List TextEdit) :
    (sort_by_start l).Pairwise (fun a b => posLe a.range.start b.range.start) := by
  induction l with
  | nil => simp [sort_by_start]
  | cons e es ih => exact pairwise_insertEdit e (sort_by_start es) ih

theorem eq_of_perm_sorted_nodup :
    ∀ (l₁ l₂ : List TextEdit), l₁.Perm l₂ →
    l₁.Pairwise (fun a b => posLe a.range.start b.range.start) →
    l₂.Pairwise (fun a b => posLe a.range.start b.range.start) →
    (l₁.map (fun e => e.range.start)).Nodup → l₁ = l₂ := by
  intro l₁
  induction l₁ with
  | nil =>
    intro l₂ hperm _ _ _
    exact hperm.symm.eq_nil.symm
  | cons a t₁ ih =>
    intro l₂ hperm hs₁ hs₂ hnd
    have ha : a ∈ l₂ := hperm.subset (List.mem_cons_self a t₁)
    cases l₂ with
    | nil => simp at ha
    | cons b t₂ =>
      have hab : a = b := by
        rcases List.mem_cons.mp ha with h | h
        · exact h
        · have hb : b ∈ a :: t₁ := hperm.symm.subset (List.mem_cons_self b t₂)
          rcases List.mem_cons.mp hb with h' | h'
          · exact h'.symm
          · have h1 : posLe a.range.start b.range.start :=
              (List.pairwise_cons.mp hs₁).1 b h'
            have h2 : posLe b.range.start a.range.start :=
              (List.pairwise_cons.mp hs₂).1 a h
            have heq : a.range.start = b.range.start :=
              posLe_antisymm _ _ h1 h2
            exfalso
            rw [List.map_cons, List.nodup_cons] at hnd
            exact hnd.1 (List.mem_map.mpr ⟨b, h', heq.symm⟩)
      subst hab
      have hperm' : t₁.Perm t₂ := hperm.cons_inv
      rw [List.map_cons, List.nodup_cons] at hnd
      rw [ih t₂ hperm' (List.pairwise_cons.mp hs₁).2
        (List.pairwise_cons.mp hs₂).2 hnd.2]

theorem sort_by_start_reverse_eq (edits : List TextEdit)
    (hnd : (edits.map (fun e => e.range.start)).Nodup) :
    sort_by_start edits.reverse = sort_by_start edits := by
  apply eq_of_perm_sorted_nodup
  · exact (sort_by_start_perm _).trans
      ((List.reverse_perm edits).trans (sort_by_start_perm edits).symm)
  · exact sort_by_start_sorted _
  · exact sort_by_start_sorted _
  · have h1 : ((sort_by_start edits.reverse).map
        (fun e => e.range.start)).Perm (edits.map (fun e => e.range.start)) :=
      ((sort_by_start_perm edits.reverse).trans (List.reverse_perm edits)).map _
    exact h1.nodup_iff.mpr hnd

theorem gen_tx_not_full (doc : List Char) (edits : List TextEdit)
    (enc : OffsetEncoding)
    (h : ∀ e, edits = [e] →
      translated_range doc e enc ≠ some (0, len_chars doc)) :
    generate_transaction_from_edits doc edits enc =
      Transaction.change doc
        ((sort_by_start edits).map (editTriple doc enc)) := by
  unfold generate_transaction_from_edits
  rcases hs : sort_by_start edits with _ | ⟨e, _ | ⟨f, fs⟩⟩
  · rfl
  · have hedits : edits = [e] := by
      have hp := sort_by_start_perm edits
      rw [hs] at hp
      exact (List.singleton_perm.mp hp).symm
    show (if translated_range doc e enc = some (0, len_chars doc) then
        compare_ropes doc e.new_text
      else Transaction.change doc [editTriple doc enc e]) = _
    rw [if_neg (h e hedits)]
    rfl
  · rfl

/-- C4.  `generate_transaction_from_edits` sorts the supplied edits by range
start before translating them: two edits presented with equal range starts
keep their original relative order, and (for edits with pairwise-distinct
starts) presenting the list end-first produces the same transaction as
presenting it start-first. -/
theorem edits_sorted_stably_by_start :
    (∀ e1 e2 : TextEdit, e1.range.start = e2.range.start →
      sort_by_start [e1, e2] = [e1, e2]) ∧
    (∀ (doc : List Char) (edits : List TextEdit) (enc : OffsetEncoding),
      (edits.map (fun e => e.range.start)).Nodup →
      generate_transaction_from_edits doc edits.reverse enc =
        generate_transaction_from_edits doc edits enc) := by
  constructor
  · intro e1 e2 h
    have hle : posLe e1.range.start e2.range.start := by
      rw [h]; exact posLe_refl _
    simp [sort_by_start, insertEdit, hle]
  · intro doc edits enc h
    unfold generate_transaction_from_edits
    rw [sort_by_start_reverse_eq edits h]

/-- Witness for C4 at concrete inputs. -/
theorem edits_sorted_stably_by_start_witness :
    (([wEdit1, wEdit2] : List TextEdit).map
      (fun e => e.range.start)).Nodup ∧
    generate_transaction_from_edits [] ([wEdit1, wEdit2] : List TextEdit).reverse .Utf8 =
      generate_transaction_from_edits [] [wEdit1, wEdit2] .Utf8 :=
  ⟨by decide,
    edits_sorted_stably_by_start.2 [] [wEdit1, wEdit2] .Utf8 (by decide)⟩

/-- C5.  A single edit whose translated range covers the whole document
`[0, len_chars)` yields the transaction built by `compare_ropes` (the minimal
diff of old contents against the edit's new text); any other number of edits,
or any other translated range, yields the batched transaction built from the
per-edit triples. -/
theorem gen_tx_full_replacement_is_diff :
    (∀ (doc : List Char) (edit : TextEdit) (enc : OffsetEncoding),
      translated_range doc edit enc = some (0, len_chars doc) →
      generate_transaction_from_edits doc [edit] enc =
        compare_ropes doc edit.new_text) ∧
    (∀ (doc : List Char) (edits : List TextEdit) (enc : OffsetEncoding),
      (∀ e, edits = [e] →
        translated_range doc e enc ≠ some (0, len_chars doc)) →
      generate_transaction_from_edits doc edits enc =
        Transaction.change doc
          ((sort_by_start edits).map (editTriple doc enc))) := by
  constructor
  · intro doc edit enc h
    unfold generate_transaction_from_edits
    show generate_from_sorted doc [edit] enc = _
    show (if translated_range doc edit enc = some (0, len_chars doc) then
        compare_ropes doc edit.new_text
      else Transaction.change doc [editTriple doc enc edit]) = _
    rw [if_pos h]
  · exact fun doc edits enc h => gen_tx_not_full doc edits enc h

/-- Witness for C5 at a concrete input: one edit spanning the whole one-char
document. -/
theorem gen_tx_full_replacement_is_diff_witness :
    translated_range ['a'] wEditFull .Utf8 = some (0, len_chars ['a']) ∧
    generate_transaction_from_edits ['a'] [wEditFull] .Utf8 =
      compare_ropes ['a'] wEditFull.new_text :=
  ⟨by decide,
    gen_tx_full_replacement_is_diff.1 ['a'] wEditFull .Utf8 (by decide)⟩

/-- C6.  In `generate_transaction_from_edits`, an edit whose start or end
does not translate contributes the no-op triple `(0, 0, none)`, and (off the
single-full-replacement path) the batch is still the full map over every
sorted edit: the triple list keeps the batch's length and contains the no-op
triple — no edit aborts the batch. -/
theorem untranslatable_edit_is_noop :
    ∀ (doc : List Char) (edits : List TextEdit) (enc : OffsetEncoding)
      (edit : TextEdit), edit ∈ edits →
      (lsp_pos_to_pos doc edit.range.start enc = none ∨
        lsp_pos_to_pos doc edit.range.stop enc = none) →
      editTriple doc enc edit = (0, 0, none) ∧
      ((∀ e, edits = [e] →
          translated_range doc e enc ≠ some (0, len_chars doc)) →
        generate_transaction_from_edits doc edits enc =
          Transaction.change doc
            ((sort_by_start edits).map (editTriple doc enc)) ∧
        ((sort_by_start edits).map (editTriple doc enc)).length =
          edits.length ∧
        (0, 0, (none : Option String)) ∈
          (sort_by_start edits).map (editTriple doc enc)) := by
  intro doc edits enc edit hmem hnone
  have htriple : editTriple doc enc edit = (0, 0, none) := by
    rcases hnone with h | h
    · simp [editTriple, h]
    · cases hstart : lsp_pos_to_pos doc edit.range.start enc with
      | none => simp [editTriple, hstart]
      | some s => simp [editTriple, hstart, h]
  refine ⟨htriple, fun hfull => ⟨gen_tx_not_full doc edits enc hfull, ?_, ?_⟩⟩
  · rw [List.length_map]
    exact (sort_by_start_perm edits).length_eq
  · have hmem' : edit ∈ sort_by_start edits :=
      (sort_by_start_perm edits).mem_iff.mpr hmem
    rw [← htriple]
    exact List.mem_map_of_mem _ hmem'

/-- Witness for C6 at concrete inputs: a two-edit batch in the empty
document whose first edit does not translate. -/
theorem untranslatable_edit_is_noop_witness :
    wEditA ∈ ([wEditA, wEditB] : List TextEdit) ∧
    lsp_pos_to_pos [] wEditA.range.start .Utf8 = none ∧
    editTriple [] .Utf8 wEditA = (0, 0, none) ∧
    generate_transaction_from_edits [] [wEditA, wEditB] .Utf8 =
      Transaction.change []
        ((sort_by_start [wEditA, wEditB]).map (editTriple [] .Utf8)) ∧
    ((sort_by_start [wEditA, wEditB]).map (editTriple [] .Utf8)).length =
      ([wEditA, wEditB] : List TextEdit).length ∧
    (0, 0, (none : Option String)) ∈
      (sort_by_start [wEditA, wEditB]).map (editTriple [] .Utf8) := by
  have happ := untranslatable_edit_is_noop [] [wEditA, wEditB] .Utf8 wEditA
    (by decide) (Or.inl (by decide))
  have hrest := happ.2 (by intro e h; simp at h)
  exact ⟨by decide, by decide, happ.1, hrest.1, hrest.2.1, hrest.2.2⟩

/-- C7.  `MethodCall::parse` is `Unhandled` exactly off the four recognised
server requests, `Notification::parse` exactly off the six recognised
notifications, and a recognised method whose parameters fail to decode
surfaces a `Parse` error instead. -/
theorem parse_unhandled_iff_unknown_method :
    (∀ (m : String) (p : Params),
      MethodCall.parse m p = .error .Unhandled ↔
        (m ≠ "window/workDoneProgress/create" ∧ m ≠ "workspace/applyEdit" ∧
          m ≠ "workspace/workspaceFolders" ∧ m ≠ "workspace/configuration")) ∧
    (∀ (m : String) (p : Params),
      Notification.parse m p = .error .Unhandled ↔
        (m ≠ "initialized" ∧ m ≠ "exit" ∧
          m ≠ "textDocument/publishDiagnostics" ∧ m ≠ "window/showMessage" ∧
          m ≠ "window/logMessage" ∧ m ≠ "$/progress")) ∧
    (∀ p : Params, p.workDoneProgressCreate = none →
      MethodCall.parse "window/workDoneProgress/create" p = .error .Parse) ∧
    (∀ p : Params, p.applyWorkspaceEdit = none →
      MethodCall.parse "workspace/applyEdit" p = .error .Parse) ∧
    (∀ p : Params, p.configuration = none →
      MethodCall.parse "workspace/configuration" p = .error .Parse) ∧
    (∀ p : Params, p.publishDiagnostics = none →
      Notification.parse "textDocument/publishDiagnostics" p = .error .Parse) ∧
    (∀ p : Params, p.showMessage = none →
      Notification.parse "window/showMessage" p = .error .Parse) ∧
    (∀ p : Params, p.logMessage = none →
      Notification.parse "window/logMessage" p = .error .Parse) ∧
    (∀ p : Params, p.progressParams = none →
      Notification.parse "$/progress" p = .error .Parse) := by
  refine ⟨?_, ?_, ?_, ?_, ?_, ?_, ?_, ?_, ?_⟩
  · intro m p
    unfold MethodCall.parse
    split_ifs with h1 h2 h3 h4
    · cases hp : p.workDoneProgressCreate <;> simp [hp, h1]
    · cases hp : p.applyWorkspaceEdit <;> simp [hp, h2]
    · simp [h3]
    · cases hp : p.configuration <;> simp [hp, h4]
    · simp [h1, h2, h3, h4]
  · intro m p
    unfold Notification.parse
    split_ifs with h1 h2 h3 h4 h5 h6
    · simp [h1]
    · simp [h2]
    · cases hp : p.publishDiagnostics <;> simp [hp, h3]
    · cases hp : p.showMessage <;> simp [hp, h4]
    · cases hp : p.logMessage <;> simp [hp, h5]
    · cases hp : p.progressParams <;> simp [hp, h6]
    · simp [h1, h2, h3, h4, h5, h6]
  · intro p hp
    simp [MethodCall.parse, hp]
  · intro p hp
    simp [MethodCall.parse, hp]
  · intro p hp
    simp [MethodCall.parse, hp]
  · intro p hp
    simp [Notification.parse, hp]
  · intro p hp
    simp [Notification.parse, hp]
  · intro p hp
    simp [Notification.parse, hp]
  · intro p hp
    simp [Notification.parse, hp]

/-- Witness for C7 at concrete inputs: an unknown method is `Unhandled`, and
a known method with undecodable parameters is a `Parse` error. -/
theorem parse_unhandled_iff_unknown_method_witness :
    ("textDocument/didOpen" ≠ "window/workDoneProgress/create" ∧
      "textDocument/didOpen" ≠ "workspace/applyEdit" ∧
      "textDocument/didOpen" ≠ "workspace/workspaceFolders" ∧
      "textDocument/didOpen" ≠ "workspace/configuration") ∧
    MethodCall.parse "textDocument/didOpen"
      ⟨none, none, none, none, none, none, none⟩ = .error .Unhandled ∧
    Notification.parse "$/progress"
      ⟨none, none, none, none, none, none, none⟩ = .error .Parse :=
  ⟨by decide,
    (parse_unhandled_iff_unknown_method.1 "textDocument/didOpen"
      ⟨none, none, none, none, none, none, none⟩).mpr (by decide),
    parse_unhandled_iff_unknown_method.2.2.2.2.2.2.2.2
      ⟨none, none, none, none, none, none, none⟩ rfl⟩

theorem updateScope_keys (inner : List (String × Nat × Client))
    (scope : String) (v : Nat × Client) :
    (updateScope inner scope v).map (fun e => e.1) =
      inner.map (fun e => e.1) := by
  unfold updateScope
  rw [List.map_map]
  apply List.map_congr_left
  intro e _
  simp only [Function.comp]
  split
  · rename_i h; exact h.symm
  · rfl

theorem lookupScope_mem (inner : List (String × Nat × Client))
    (scope : String) (v : Nat × Client)
    (h : lookupScope inner scope = some v) :
    ∃ e ∈ inner, e.1 = scope ∧ e.2 = v := by
  unfold lookupScope at h
  cases hf : inner.find? (fun e => e.1 = scope) with
  | none => rw [hf] at h; simp at h
  | some a =>
    rw [hf] at h
    simp at h
    refine ⟨a, List.mem_of_find?_eq_some hf, ?_, h⟩
    have := List.find?_some hf
    simpa using this

/-- C8.  `Registry::restart` returns `None` and leaves the registry intact
when no entry exists for the scope; when an entry exists (and a server is
configured) it allocates the counter's current value as the fresh
identifier — different from the replaced client's identifier and from every
identifier stored in the registry — stores the replacement under the same
scope key, bumps the counter, and preserves registry well-formedness (so no
identifier is ever reused). -/
theorem restart_returns_fresh_identifier (r : Registry)
    (cfg : LanguageConfiguration) (hwf : r.wf) :
    (lookupScope r.inner cfg.scope = none → r.restart cfg = (r, none)) ∧
    (∀ cfgs oldId oldC, cfg.language_server = some cfgs →
      lookupScope r.inner cfg.scope = some (oldId, oldC) →
      r.restart cfg =
        ({ inner := updateScope r.inner cfg.scope
              (r.counter, start_client r.counter),
           counter := r.counter + 1 }, some (start_client r.counter)) ∧
      (start_client r.counter).id = r.counter ∧
      r.counter ≠ oldId ∧
      (∀ e ∈ r.inner, r.counter ≠ e.2.1) ∧
      (r.restart cfg).1.wf) := by
  constructor
  · intro hnone
    unfold Registry.restart
    cases cfg.language_server with
    | none => rfl
    | some _ => rw [hnone]
  · intro cfgs oldId oldC hcfg hsome
    have hfresh : ∀ e ∈ r.inner, r.counter ≠ e.2.1 := by
      intro e he
      have := hwf.2 e he
      omega
    have hrw : r.restart cfg =
        ({ inner := updateScope r.inner cfg.scope
              (r.counter, start_client r.counter),
           counter := r.counter + 1 }, some (start_client r.counter)) := by
      unfold Registry.restart
      rw [hcfg, hsome]
    have hold : r.counter ≠ oldId := by
      obtain ⟨e, he, _, hev⟩ := lookupScope_mem r.inner cfg.scope
        (oldId, oldC) hsome
      have := hfresh e he
      rw [hev] at this
      exact this
    refine ⟨hrw, rfl, hold, hfresh, ?_⟩
    rw [hrw]
    unfold Registry.wf
    dsimp only
    constructor
    · rw [updateScope_keys]
      exact hwf.1
    · intro e' he'
      unfold updateScope at he'
      obtain ⟨e, he, hee⟩ := List.mem_map.mp he'
      by_cases hsc : e.1 = cfg.scope
      · rw [if_pos hsc] at hee
        rw [← hee]
        exact ⟨Nat.lt_succ_self r.counter, rfl⟩
      · rw [if_neg hsc] at hee
        rw [← hee]
        have := hwf.2 e he
        exact ⟨Nat.lt_succ_of_lt this.1, this.2⟩

/-- Witness for C8 at a concrete registry: restarting the only entry yields
the fresh identifier `1`, distinct from the stored identifier `0`. -/
theorem restart_returns_fresh_identifier_witness :
    wReg.wf ∧
    wCfg.language_server = some ⟨"rust-analyzer"⟩ ∧
    lookupScope wReg.inner wCfg.scope = some (0, ⟨0⟩) ∧
    (wReg.restart wCfg =
      ({ inner := updateScope wReg.inner wCfg.scope
            (wReg.counter, start_client wReg.counter),
         counter := wReg.counter + 1 }, some (start_client wReg.counter)) ∧
      (start_client wReg.counter).id = wReg.counter ∧
      wReg.counter ≠ 0 ∧
      (∀ e ∈ wReg.inner, wReg.counter ≠ e.2.1) ∧
      (wReg.restart wCfg).1.wf) := by
  have hwf : wReg.wf := by
    constructor
    · decide
    · decide
  exact ⟨hwf, rfl, by decide,
    (restart_returns_fresh_identifier wReg wCfg hwf).2
      ⟨"rust-analyzer"⟩ 0 ⟨0⟩ rfl (by decide)⟩

/-- C9.  `LspProgressMap::end_progress` removes the `(id, token)` entry and
returns exactly the status it had before the call (`none` when there was no
such entry); afterwards `progress id token` is `none`. -/
theorem end_progress_removes_and_returns (m : LspProgressMap) (id : Nat)
    (token : ProgressToken) :
    (m.end_progress id token).1 = m.progress id token ∧
    ((m.end_progress id token).2).progress id token = none := by
  unfold LspProgressMap.end_progress LspProgressMap.progress
  cases hm : m id with
  | none =>
    refine ⟨rfl, ?_⟩
    show (match m id with
      | none => none
      | some values => values token) = none
    rw [hm]
  | some values =>
    refine ⟨rfl, ?_⟩
    simp

end HelixLsp
